import Mathlib

/-!
# open-coder: the response-interpretation and execution pipeline

A shallow embedding of the loop of `main` (main.go), of the history trim it
performs, of the text extractor it applies to the reply of the model, and of
`command.ExecuteCommands` (command/command.go), with the properties proved
about them.

Conventions of the embedding:
* a Go string that holds valid UTF-8 is a list of code points (`Text`); the
  contents handled by the extractor come out of `encoding/json`, which only
  produces valid UTF-8, and the needles searched for are ASCII, so byte
  offsets and code point offsets select the same pieces;
* a result of -1 of `strings.Index` and `strings.LastIndex` is `none`;
* the float64 arithmetic of the trim is computed exactly on naturals;
* what the surroundings answer (backend, JSON decoder, shell, file system)
  is an argument of the embedded functions.
-/

namespace OpenCoder

/-! ## Definitions -/

/-- Go strings that hold valid UTF-8 are modelled as lists of code points. -/
abbrev Text := List Char

/-- Go `unicode.IsSpace`, the predicate `strings.TrimSpace` trims by. -/
def isSpace (c : Char) : Bool :=
  let n := c.toNat
  n == 0x20 || (0x09 ≤ n && n ≤ 0x0D) || n == 0x85 || n == 0xA0 || n == 0x1680 ||
    (0x2000 ≤ n && n ≤ 0x200A) || n == 0x2028 || n == 0x2029 || n == 0x202F ||
    n == 0x205F || n == 0x3000

/-- Go `strings.TrimSpace`: leading and trailing white space removed. -/
def trimSpace (s : Text) : Text :=
  (s.dropWhile isSpace).rdropWhile isSpace

/-- Go `strings.HasPrefix`. -/
def hasPrefix (s pre : Text) : Bool :=
  pre.isPrefixOf s

/-- Go `strings.Index`: position of the first occurrence of `sub` in `s`;
`none` stands for the result -1. -/
def index (s sub : Text) : Option Nat :=
  match s with
  | [] => if sub.isEmpty then some 0 else none
  | c :: cs =>
    if sub.isPrefixOf (c :: cs) then some 0 else (index cs sub).map (· + 1)

/-- Go `strings.LastIndex`: position of the last occurrence of `sub` in `s`;
`none` stands for the result -1. -/
def lastIndex (s sub : Text) : Option Nat :=
  match s with
  | [] => if sub.isEmpty then some 0 else none
  | c :: cs =>
    match lastIndex cs sub with
    | some k => some (k + 1)
    | none => if sub.isPrefixOf (c :: cs) then some 0 else none

/-- The reasoning-close marker of main.go line 263. -/
def thinkClose : Text := "</think>".toList

/-- The Markdown fence of main.go line 270. -/
def fence : Text := "```".toList

/-- Step 1 of the extractor (main.go 262-265): cut everything up to and
including the last `</think>`. -/
def dropThinking (content : Text) : Text :=
  match lastIndex content thinkClose with
  | some idx => content.drop (idx + thinkClose.length)
  | none => content

/-- Step 2 of the extractor (main.go 270-280): when the text opens with a
fence, drop the fence, the rest of its line, and everything from the last
fence on. -/
def stripFence (processed : Text) : Text :=
  if hasPrefix processed fence then
    let p := processed.drop fence.length
    let p :=
      match index p "\n".toList with
      | some nl => p.drop (nl + 1)
      | none => p
    match lastIndex p fence with
    | some idx => p.take idx
    | none => p
  else processed

/-- Step 3 of the extractor (main.go 283-288): the span from the first `{`
to the last `}` when the latter lies after the former. -/
def sliceObject (processed : Text) : Text :=
  match index processed "\x7b".toList with
  | some i =>
    match lastIndex processed "\x7d".toList with
    | some j => if j > i then (processed.take (j + 1)).drop i else processed
    | none => processed
  | none => processed

/-- The text handed to the decoder: main.go lines 261-288 applied to the
assistant content. -/
def extractJSON (content : Text) : Text :=
  sliceObject (stripFence (trimSpace (dropThinking content)))

/-- Some `{` of the text is followed by a later `}`. -/
def HasBracePair (s : Text) : Prop :=
  ∃ a b c, s = a ++ '{' :: b ++ '}' :: c

/-- Fenced block with the language tag `json` around `o`. -/
def fencedJSON (o : Text) : Text := "```json\n".toList ++ o ++ "\n```".toList

/-- Fenced block without a language tag around `o`. -/
def fencedPlain (o : Text) : Text := "```\n".toList ++ o ++ "\n```".toList

/-- Number of bits by which `n` exceeds the 53-bit significand of a float64:
`n` is halved until it is below `2 ^ 53`; the first argument bounds the
number of halvings and is always given as `n` itself. -/
def excessBits : Nat → Nat → Nat
  | 0, _ => 0
  | fuel + 1, n => if n < 2 ^ 53 then 0 else excessBits fuel (n / 2) + 1

/-- IEEE-754 binary64 rounding (to nearest, ties to even) of the natural
number `n` to 53 significant bits. An exact value `n * 2 ^ k` rounds to
`roundFloat64 n * 2 ^ k`. -/
def roundFloat64 (n : Nat) : Nat :=
  let e := excessBits n n
  let q := n / 2 ^ e
  let r := n % 2 ^ e
  if 2 ^ e < 2 * r ∨ (2 * r = 2 ^ e ∧ q % 2 = 1) then (q + 1) * 2 ^ e else q * 2 ^ e

/-- Significand of the float64 constant `0.2`, whose value is
`point2 / 2 ^ 54` (bit pattern 0x3FC999999999999A). -/
def point2 : Nat := 3602879701896397

/-- Go `int(float64(n) * 0.2)` (main.go line 321): `n` is converted to
float64, multiplied by the float64 constant 0.2 with one rounding, and the
product is truncated. -/
def scaleLen (n : Nat) : Nat :=
  roundFloat64 (roundFloat64 n * point2) / 2 ^ 54

/-- The value of `dropCount` at main.go line 325, for a history of `n` turns. -/
def dropCount (n : Nat) : Nat :=
  if scaleLen n < 1 then 1 else scaleLen n

/-- Go `Message` (main.go 22-25). -/
structure Message where
  Role : Text
  Content : Text
deriving DecidableEq, Repr

/-- The trim step of main.go 320-326. The slice `history[dropCount:]` is
modelled by `List.drop`; `dropCount_le` shows the slice bound always holds
where it is taken. -/
def trimHistory (limit : Int) (history : List Message) : List Message :=
  if 0 < limit ∧ limit < (history.length : Int) then
    history.drop (dropCount history.length)
  else history

/-- The length the spec gives for a trimmed history of `L` turns:
`L - max(1, ceil(L * 0.2))`. -/
def specTrimmedLength (L : Nat) : Nat :=
  L - max 1 ⌈(L : ℚ) * 0.2⌉₊

/-- Go `Config` (config.go 8-16); `Prompts` is the map as a list of entries. -/
structure Config where
  OllamaURL : Text
  Model : Text
  IgnoreDirs : List Text
  ContextFileLimit : Int
  Prompts : List (Text × Text)

/-- Go `CommandResponse` of main.go 255-258. -/
structure CommandResponse where
  Commands : List Text
  Explanation : Text
deriving DecidableEq, Repr

/-- A value decoded by `encoding/json` into `interface{}`; an object is its
list of entries, looked up by key. -/
inductive JSONValue where
  | null
  | bool (b : Bool)
  | num (x : ℚ)
  | str (s : Text)
  | arr (items : List JSONValue)
  | obj (fields : List (Text × JSONValue))

/-- The type assertion `x.([]interface{})`; `none` is a failed assertion
(also for a missing key, which Go reads as nil). -/
def asArray : Option JSONValue → Option (List JSONValue)
  | some (JSONValue.arr items) => some items
  | _ => none

/-- The type assertion `x.(map[string]interface{})`. -/
def asObject : Option JSONValue → Option (List (Text × JSONValue))
  | some (JSONValue.obj fields) => some fields
  | _ => none

/-- The type assertion `x.(string)`. -/
def asString : Option JSONValue → Option Text
  | some (JSONValue.str s) => some s
  | _ => none

/-- The assistant content taken from the decoded response body
(main.go 236-249); the empty text is Go's zero value of `content`. -/
def assistantContent (respObj : List (Text × JSONValue)) : Text :=
  match asArray (respObj.lookup "choices".toList) with
  | some (c0 :: _) =>
    match asObject (some c0) with
    | some ch0 =>
      match asObject (ch0.lookup "message".toList) with
      | some msg =>
        match asString (msg.lookup "content".toList) with
        | some c => c
        | none => []
      | none => []
    | none => []
  | _ =>
    match asObject (respObj.lookup "message".toList) with
    | some message =>
      match asString (message.lookup "content".toList) with
      | some c => c
      | none => []
    | none => []

/-- What the history file holds when a turn reads it. -/
inductive HistoryFile where
  /-- The file does not exist. -/
  | missing
  /-- The file exists and `ioutil.ReadFile` fails on it. -/
  | unreadable
  /-- The file is read and `json.Unmarshal` into `[]Message` fails on it. -/
  | malformed
  /-- The file is read and decodes to the given sequence of turns. -/
  | stored (history : List Message)
deriving DecidableEq, Repr

/-- Outcome of encoding the history and writing it to the history file. -/
inductive WriteOutcome where
  /-- The history is encoded and the file is written in full. -/
  | done
  /-- `json.Marshal` fails, nothing is written. -/
  | marshalError
  /-- `ioutil.WriteFile` fails before it changes the file. -/
  | untouched
  /-- `ioutil.WriteFile` fails after truncating the file. -/
  | truncated
deriving DecidableEq, Repr

/-- Outcome of one shell invocation: the combined output, and the error of
`CombinedOutput` when the command exits non-zero or cannot be run. -/
structure ShellResult where
  out : Text
  err : Option Text

/-- Outcome of main.go 201-229, from encoding the payload to reading the body. -/
inductive Reply where
  /-- `json.Marshal(payload)` fails. -/
  | payloadError (e : Text)
  /-- `http.NewRequest` fails. -/
  | requestError (e : Text)
  /-- `http.DefaultClient.Do` fails. -/
  | sendError (e : Text)
  /-- The status is not 200. -/
  | badStatus (status body : Text)
  /-- `io.ReadAll` on the body fails. -/
  | unreadableBody (e : Text)
  /-- Status 200 and the body read in full. -/
  | ok (body : Text)

/-- Outcome of `reader.ReadString` (main.go 114-122). -/
inductive ReadResult where
  | line (s : Text)
  | eof
  | error (e : Text)

/-- The machine the program runs on: the history file and the rest, of
type `S`. -/
structure World (S : Type) where
  history : HistoryFile
  sys : S

/-- What the surroundings answer during one pass of the loop. -/
structure Env (S : Type) where
  /-- The chat endpoint: url, model and messages to the outcome of the request. -/
  chat : Text → Text → List Message → Reply
  /-- Go `json.Unmarshal` of a body into `map[string]interface{}`. -/
  unmarshalBody : Text → Option (List (Text × JSONValue))
  /-- Go `json.Unmarshal` of a text into `CommandResponse`. -/
  unmarshalAction : Text → Option CommandResponse
  /-- Run `bash -lc cmd` in directory `cwd`: the result, and the machine the
  command leaves; a command can change the history file like any other file. -/
  shell : Text → Text → World S → ShellResult × World S
  /-- Outcome of a write to the history file in this pass. -/
  writeOutcome : WriteOutcome

/-- What a pass of the loop does that can be observed. -/
inductive Event where
  | stdout (s : Text)
  | stderr (s : Text)
  /-- A shell invocation of the given command. -/
  | invoke (cmd : Text)
  /-- A chat request carrying the given messages. -/
  | request (messages : List Message)
deriving DecidableEq, Repr

/-- How a pass of the loop ends: `continue`, or the process ends. -/
inductive Control where
  | next
  | exit (code : Nat)
deriving DecidableEq, Repr

/-- Result of a pass of the loop. -/
structure Result (S : Type) where
  world : World S
  log : List Event
  control : Control

/-- The commands invoked according to a log, in order. -/
def invocations (log : List Event) : List Text :=
  log.filterMap (fun e => match e with
    | Event.invoke cmd => some cmd
    | _ => none)

/-- The texts written to standard error according to a log, in order. -/
def stderrs (log : List Event) : List Text :=
  log.filterMap (fun e => match e with
    | Event.stderr s => some s
    | _ => none)

/-- The run of a command list on machine `w`: each command with the result
of its shell invocation, the first on `w`, each later one on the machine its
predecessor left. -/
def outcomes {S : Type} (env : Env S) (cwd : Text) :
    List Text → World S → List (Text × ShellResult)
  | [], _ => []
  | c :: rest, w => (c, (env.shell cwd c w).1) :: outcomes env cwd rest (env.shell cwd c w).2

/-- The diagnostic for a command whose invocation returned an error, none
for one that returned without. -/
def report (p : Text × ShellResult) : Option Text :=
  p.2.err.map (fun e =>
    "Error executing command '".toList ++ p.1 ++ "': ".toList ++ e ++ "\n".toList)

/-- An output with a newline added when it does not end in one. -/
def terminated (out : Text) : Text :=
  if out.getLast? = some '\n' then out else out ++ "\n".toList

/-- The outputs of a run, each ended by a newline, one after another. -/
def combined : List (Text × ShellResult) → Text
  | [] => []
  | p :: rest => terminated p.2.out ++ combined rest

/-- The shell commands of this environment leave the history file as it is. -/
def KeepsHistory {S : Type} (env : Env S) : Prop :=
  ∀ (cwd cmd : Text) (w : World S), (env.shell cwd cmd w).2.history = w.history

/-- The file after a write of `history` with the given outcome. -/
def writeHistory (outcome : WriteOutcome) (old : HistoryFile) (history : List Message) :
    HistoryFile :=
  match outcome with
  | WriteOutcome.done => HistoryFile.stored history
  | WriteOutcome.marshalError => old
  | WriteOutcome.untouched => old
  | WriteOutcome.truncated => HistoryFile.malformed

/-- The command loop of main.go 136-149 and 298-311. -/
def executeLoop {S : Type} (env : Env S) (cwd : Text) :
    List Text → World S → List Event × World S
  | [], w => ([], w)
  | cmdStr :: rest, w =>
    let r := env.shell cwd cmdStr w
    let tail := executeLoop env cwd rest r.2
    ([Event.stdout ("> ".toList ++ cmdStr ++ "\n".toList), Event.invoke cmdStr,
      Event.stdout (if r.1.out.length > 0 then r.1.out ++ "\n".toList
        else "(no output)\n".toList)] ++
      (match r.1.err with
        | some e => [Event.stderr ("Error executing command '".toList ++ cmdStr ++
            "': ".toList ++ e ++ "\n".toList)]
        | none => []) ++ tail.1, tail.2)

namespace command

/-- Go `command.CommandResponse` (command/command.go 8-12). -/
structure CommandResponse where
  Commands : List Text
  Explanation : Text
  Answer : Text

/-- The loop of `ExecuteCommands`: the builder `sb`, the log and the machine. -/
def executeFrom {S : Type} (env : Env S) (cwd : Text) :
    List Text → Text → World S → Text × List Event × World S
  | [], sb, w => (sb, [], w)
  | cmdStr :: rest, sb, w =>
    let r := env.shell cwd cmdStr w
    let sb := sb ++ r.1.out
    let sb := if r.1.out.getLast? = some '\n' then sb else sb ++ "\n".toList
    let tail := executeFrom env cwd rest sb r.2
    (tail.1, Event.invoke cmdStr :: tail.2.1, tail.2.2)

/-- Go `command.ExecuteCommands` (command/command.go 15-27): the combined
output, with the log of invocations and the machine after them. -/
def ExecuteCommands {S : Type} (env : Env S) (cwd : Text) (cr : CommandResponse)
    (w : World S) : Text × List Event × World S :=
  executeFrom env cwd cr.Commands [] w

end command

/-- Go `strings.ReplaceAll` for a non-empty `old`; the first argument counts
the characters of a match still to be skipped. -/
def replaceFrom (old new : Text) : Nat → Text → Text
  | _, [] => []
  | k + 1, _ :: cs => replaceFrom old new k cs
  | 0, c :: cs =>
    if old.isPrefixOf (c :: cs) then new ++ replaceFrom old new (old.length - 1) cs
    else c :: replaceFrom old new 0 cs

/-- Go `strings.ReplaceAll(s, old, new)` for a non-empty `old`. -/
def replaceAll (s old new : Text) : Text :=
  replaceFrom old new 0 s

/-- Go `strings.TrimRight(s, "/")`. -/
def trimRightSlash (s : Text) : Text :=
  s.rdropWhile (fun c => c == '/')

/-- The guarded command loop of the model turn (main.go 296-313). -/
def executeIfAny {S : Type} (env : Env S) (cwd : Text) (cmds : List Text) (w : World S) :
    List Event × World S :=
  if cmds.length > 0 then
    let r := executeLoop env cwd cmds w
    ([Event.stdout "Executing commands:\n".toList] ++ r.1 ++
      [Event.stdout "Done executing commands.\n".toList], r.2)
  else ([], w)

/-- The history a turn works with once the file is read (main.go 185-188):
the decoded sequence, or the empty one when decoding fails. -/
def loaded (file : HistoryFile) : List Message :=
  match file with
  | HistoryFile.stored h => h
  | _ => []

/-- The message list of the request (main.go 190-195): the system prompt,
the history, the new user message. -/
def assemble (systemPrompt : Text) (history : List Message) (prompt : Text) : List Message :=
  ⟨"system".toList, systemPrompt⟩ :: (history ++ [⟨"user".toList, prompt⟩])

/-- The address of the chat endpoint (main.go 206). -/
def chatURL (conf : Config) : Text :=
  trimRightSlash conf.OllamaURL ++ "/api/chat".toList

/-- The model turn of main.go 179-332, from loading the history to writing
it back, for the rendered `prompt`. The history is read before the commands
run and written after them, over whatever they left in the file. -/
def dispatchToModel {S : Type} (env : Env S) (conf : Config) (cwd systemPrompt prompt : Text)
    (w : World S) : Result S :=
  match w.history with
  | HistoryFile.missing =>
    ⟨w, [Event.stderr "Failed to read history file\n".toList], Control.next⟩
  | HistoryFile.unreadable =>
    ⟨w, [Event.stderr "Failed to read history file\n".toList], Control.next⟩
  | file =>
    let history := loaded file
    let messages := assemble systemPrompt history prompt
    match env.chat (chatURL conf) conf.Model messages with
    | Reply.payloadError e =>
      ⟨w, [Event.stderr ("Failed to marshal payload: ".toList ++ e ++ "\n".toList)],
        Control.next⟩
    | Reply.requestError e =>
      ⟨w, [Event.stderr ("Failed to create request: ".toList ++ e ++ "\n".toList)],
        Control.next⟩
    | Reply.sendError e =>
      ⟨w, [Event.request messages,
        Event.stderr ("Request failed: ".toList ++ e ++ "\n".toList)], Control.next⟩
    | Reply.badStatus status body =>
      ⟨w, [Event.request messages,
        Event.stderr ("Non-OK HTTP status: ".toList ++ status ++ "\n".toList ++ body ++
          "\n".toList)], Control.next⟩
    | Reply.unreadableBody e =>
      ⟨w, [Event.request messages,
        Event.stderr ("Error reading response: ".toList ++ e ++ "\n".toList)], Control.next⟩
    | Reply.ok body =>
      match env.unmarshalBody body with
      | none => ⟨w, [Event.request messages, Event.stdout (body ++ "\n".toList)], Control.next⟩
      | some respObj =>
        let content := assistantContent respObj
        if content = [] then
          ⟨w, [Event.request messages, Event.stdout (body ++ "\n".toList)], Control.next⟩
        else
          match env.unmarshalAction (extractJSON content) with
          | none =>
            ⟨w, [Event.request messages, Event.stdout (content ++ "\n".toList)], Control.next⟩
          | some cr =>
            let ran := executeIfAny env cwd cr.Commands w
            let history := history ++
              [⟨"user".toList, prompt⟩, ⟨"assistant".toList, content⟩]
            let history := trimHistory conf.ContextFileLimit history
            ⟨⟨writeHistory env.writeOutcome ran.2.history history, ran.2.sys⟩,
              [Event.request messages] ++ ran.1 ++
                [Event.stdout "Explanation:\n".toList,
                  Event.stdout (cr.Explanation ++ "\n".toList)] ++
                (match env.writeOutcome with
                  | WriteOutcome.done => []
                  | WriteOutcome.marshalError =>
                    [Event.stderr "Failed to marshal history\n".toList]
                  | _ => [Event.stderr "Failed to write history file\n".toList]),
              Control.next⟩

/-- One pass of the loop of `main` from the read of the input line on
(main.go 114-332). `systemPrompt` is the static prompt with the file
listing of this pass. -/
def iteration {S : Type} (env : Env S) (conf : Config) (promptKey cwd systemPrompt : Text)
    (read : ReadResult) (w : World S) : Result S :=
  match read with
  | ReadResult.eof => ⟨w, [Event.stdout "\n".toList], Control.exit 0⟩
  | ReadResult.error e =>
    ⟨w, [Event.stderr ("Error reading input: ".toList ++ e ++ "\n".toList)], Control.exit 1⟩
  | ReadResult.line raw =>
    let input := trimSpace raw
    if input = [] then ⟨w, [], Control.next⟩
    else
      let direct : Option CommandResponse :=
        match env.unmarshalAction input with
        | some cr => if cr.Commands.length > 0 then some cr else none
        | none => none
      match direct with
      | some crDirect =>
        let r := executeLoop env cwd crDirect.Commands w
        ⟨r.2,
          [Event.stdout "Executing commands:\n".toList] ++ r.1 ++
            [Event.stdout "Done executing commands.\n".toList] ++
            (if crDirect.Explanation = [] then []
              else [Event.stdout "Explanation:\n".toList,
                Event.stdout (crDirect.Explanation ++ "\n".toList)]),
          Control.next⟩
      | none =>
        if input = "/clear".toList then
          ⟨⟨writeHistory env.writeOutcome w.history [], w.sys⟩,
            [match env.writeOutcome with
              | WriteOutcome.done => Event.stdout "Context history cleared.\n".toList
              | _ => Event.stderr "Failed to clear history\n".toList],
            Control.next⟩
        else if input = "exit".toList ∨ input = "quit".toList then
          ⟨w, [Event.stdout "Bye!\n".toList], Control.exit 0⟩
        else
          match conf.Prompts.lookup promptKey with
          | none =>
            ⟨w, [Event.stderr ("Prompt '".toList ++ promptKey ++
              "' not found in config\n".toList)], Control.exit 1⟩
          | some tmpl =>
            dispatchToModel env conf cwd systemPrompt
              (replaceAll tmpl "\x7b\x7binput\x7d\x7d".toList input) w

/-- The history file after startup (main.go 63-68): a missing file is
created holding the empty array; `none` when that write fails and the
process exits with status 1. -/
def startup (outcome : WriteOutcome) (file : HistoryFile) : Option HistoryFile :=
  match file with
  | HistoryFile.missing =>
    match outcome with
    | WriteOutcome.done => some (HistoryFile.stored [])
    | _ => none
  | f => some f

/-- The turn fails: the transport fails, or the body is not JSON, or it
carries no assistant content, or the extracted span does not decode as an
action. `history` is the history the turn works with. -/
def TurnFails {S : Type} (env : Env S) (conf : Config) (systemPrompt prompt : Text)
    (history : List Message) : Prop :=
  match env.chat (chatURL conf) conf.Model (assemble systemPrompt history prompt) with
  | Reply.ok body =>
    match env.unmarshalBody body with
    | none => True
    | some respObj =>
      assistantContent respObj = [] ∨
        env.unmarshalAction (extractJSON (assistantContent respObj)) = none
  | _ => True

/-- The passes of a session: each carries its system prompt, the line read
and what the surroundings answer. -/
structure Pass (S : Type) where
  systemPrompt : Text
  read : ReadResult
  env : Env S

/-- The loop of `main` over the given passes, until the process ends or the
passes run out: the world reached and the log. -/
def runLoop {S : Type} (conf : Config) (promptKey cwd : Text) :
    List (Pass S) → World S → World S × List Event
  | [], w => (w, [])
  | p :: rest, w =>
    let r := iteration p.env conf promptKey cwd p.systemPrompt p.read w
    match r.control with
    | Control.exit _ => (r.world, r.log)
    | Control.next =>
      let tail := runLoop conf promptKey cwd rest r.world
      (tail.1, r.log ++ tail.2)

/-- The history file holds at most `limit` turns when it decodes. -/
def Bounded (limit : Int) (file : HistoryFile) : Prop :=
  ((loaded file).length : Int) ≤ limit

/-- The body `{"message":{"content":"{}"}}`. -/
def echoBody : Text := "\x7b\"message\":\x7b\"content\":\"\x7b\x7d\"\x7d\x7d".toList

/-- A backend that answers every request with `echoBody`, whose content
`{}` is an action without commands. The decoders are `json.Unmarshal` on
the texts the sessions below hand them: `echoBody` and `{}` decode, the
typed lines `a`, `b` and `hello` are not JSON. The shell changes nothing. -/
def echoEnv : Env Unit where
  chat := fun _ _ _ => Reply.ok echoBody
  unmarshalBody := fun b =>
    if b = echoBody then
      some [("message".toList,
        JSONValue.obj [("content".toList, JSONValue.str "\x7b\x7d".toList)])]
    else none
  unmarshalAction := fun t => if t = "\x7b\x7d".toList then some ⟨[], []⟩ else none
  shell := fun _ _ w => (⟨[], none⟩, w)
  writeOutcome := WriteOutcome.done

/-- A backend whose requests all fail. -/
def downEnv : Env Unit where
  chat := fun _ _ _ => Reply.sendError "connection refused".toList
  unmarshalBody := fun _ => none
  unmarshalAction := fun _ => none
  shell := fun _ _ w => (⟨[], none⟩, w)
  writeOutcome := WriteOutcome.done

/-- A shell that knows four commands: `false` prints nothing and exits with
status 1, `true` prints nothing, `echo A` and `echo B` print their letter;
none changes the machine. -/
def bashEnv : Env Unit where
  chat := fun _ _ _ => Reply.sendError "connection refused".toList
  unmarshalBody := fun _ => none
  unmarshalAction := fun _ => none
  shell := fun _ cmd w =>
    if cmd = "false".toList then (⟨[], some "exit status 1".toList⟩, w)
    else if cmd = "echo A".toList then (⟨"A\n".toList, none⟩, w)
    else if cmd = "echo B".toList then (⟨"B\n".toList, none⟩, w)
    else (⟨[], none⟩, w)
  writeOutcome := WriteOutcome.done

/-- A configuration with the given limit and the identity prompt template. -/
def configWith (limit : Int) : Config :=
  ⟨"http://localhost:11434".toList, "m".toList, [], limit,
    [("default".toList, "\x7b\x7binput\x7d\x7d".toList)]⟩

/-- A pass in which the user types `s` and the backend is `echoEnv`. -/
def echoPass (s : Text) : Pass Unit :=
  ⟨"ctx".toList, ReadResult.line (s ++ "\n".toList), echoEnv⟩

/-- A JSON object text whose string value holds the reasoning-close marker. -/
def markerObject : Text := "\x7b\"a\":\"</think>\"\x7d".toList

/-- A brace-free text that opens with a fence. -/
def fencedProse : Text := "```\nhi\n```".toList

/-- A brace-free text that holds a reasoning marker. -/
def markedProse : Text := "a</think>b".toList

/-! ## Theorems -/

theorem index_eq_none_iff (s sub : Text) : index s sub = none ↔ ¬ sub <:+: s := by
  induction s with
  | nil =>
    cases sub <;> simp [index]
  | cons c cs ih =>
    unfold index
    by_cases hp : sub.isPrefixOf (c :: cs) = true
    · have hp2 : sub <+: c :: cs := List.isPrefixOf_iff_prefix.mp hp
      simp [hp, hp2.isInfix]
    · have hp2 : ¬ sub <+: c :: cs := fun h => hp (List.isPrefixOf_iff_prefix.mpr h)
      simp only [hp, Bool.false_eq_true, if_false, Option.map_eq_none', ih, List.infix_cons_iff,
        hp2, false_or]

theorem lastIndex_eq_none_iff (s sub : Text) : lastIndex s sub = none ↔ ¬ sub <:+: s := by
  induction s with
  | nil =>
    cases sub <;> simp [lastIndex]
  | cons c cs ih =>
    unfold lastIndex
    cases hl : lastIndex cs sub with
    | some k =>
      have : sub <:+: cs := by
        by_contra hn
        rw [(ih).mpr hn] at hl
        cases hl
      simp [List.infix_cons_iff, this]
    | none =>
      have hn : ¬ sub <:+: cs := ih.mp hl
      by_cases hp : sub.isPrefixOf (c :: cs) = true
      · have hp2 : sub <+: c :: cs := List.isPrefixOf_iff_prefix.mp hp
        simp [hp, hp2.isInfix]
      · have hp2 : ¬ sub <+: c :: cs := fun h => hp (List.isPrefixOf_iff_prefix.mpr h)
        simp [hp, List.infix_cons_iff, hp2, hn]

theorem index_single_some (c : Char) (s : Text) (i : Nat) (h : index s [c] = some i) :
    ∃ a b, s = a ++ c :: b ∧ a.length = i := by
  induction s generalizing i with
  | nil => simp [index] at h
  | cons x xs ih =>
    unfold index at h
    by_cases hp : List.isPrefixOf [c] (x :: xs) = true
    · rw [if_pos hp] at h
      have hx : c = x := by simpa [List.isPrefixOf] using hp
      refine ⟨[], xs, by simp [hx], ?_⟩
      simpa using h
    · rw [if_neg hp] at h
      cases hi : index xs [c] with
      | none => simp [hi] at h
      | some k =>
        obtain ⟨a, b, hab, hlen⟩ := ih k hi
        refine ⟨x :: a, b, by simp [hab], ?_⟩
        simp [hi] at h
        simp [hlen, h]

theorem lastIndex_single_some (c : Char) (s : Text) (j : Nat) (h : lastIndex s [c] = some j) :
    ∃ a b, s = a ++ c :: b ∧ a.length = j := by
  induction s generalizing j with
  | nil => simp [lastIndex] at h
  | cons x xs ih =>
    unfold lastIndex at h
    cases hl : lastIndex xs [c] with
    | some k =>
      obtain ⟨a, b, hab, hlen⟩ := ih k hl
      simp [hl] at h
      exact ⟨x :: a, b, by simp [hab], by simp [hlen, h]⟩
    | none =>
      simp only [hl] at h
      by_cases hp : List.isPrefixOf [c] (x :: xs) = true
      · rw [if_pos hp] at h
        have hx : c = x := by simpa [List.isPrefixOf] using hp
        refine ⟨[], xs, by simp [hx], ?_⟩
        simpa using h
      · rw [if_neg hp] at h
        cases h

/-- The last occurrence of a needle that ends the text starts where the needle was appended. -/
theorem lastIndex_append_self (a sub : Text) (hne : sub ≠ []) :
    lastIndex (a ++ sub) sub = some a.length := by
  induction a with
  | nil =>
    cases sub with
    | nil => exact absurd rfl hne
    | cons x xs =>
      have hn : lastIndex xs (x :: xs) = none := by
        rw [lastIndex_eq_none_iff]
        intro hinf
        have := hinf.length_le
        simp at this
      simp only [List.nil_append, List.length_nil]
      unfold lastIndex
      rw [hn]
      simp
  | cons y ys ih =>
    simp only [List.cons_append, List.length_cons]
    unfold lastIndex
    rw [ih]

/-- An occurrence of a needle whose first character is absent from `t` cannot
start inside `t`. -/
theorem infix_of_head_not_mem (c : Char) (w t rest : Text) (hc : c ∉ t)
    (h : (c :: w) <:+: t ++ rest) : (c :: w) <:+: rest := by
  induction t with
  | nil => simpa using h
  | cons x xs ih =>
    rw [List.cons_append, List.infix_cons_iff] at h
    rcases h with hp | hi
    · exfalso
      obtain ⟨u, hu⟩ := hp
      simp only [List.cons_append, List.cons.injEq] at hu
      exact hc (by simp [hu.1])
    · exact ih (fun hm => hc (List.mem_cons_of_mem _ hm)) hi

/-- An occurrence of a needle whose last character is absent from `t` cannot
end inside `t`. -/
theorem infix_of_last_not_mem (c : Char) (w t rest : Text) (hc : c ∉ t)
    (h : (w ++ [c]) <:+: rest ++ t) : (w ++ [c]) <:+: rest := by
  have h2 : (c :: w.reverse) <:+: t.reverse ++ rest.reverse := by
    have := List.reverse_infix.mpr h
    simpa using this
  have h3 := infix_of_head_not_mem c w.reverse t.reverse rest.reverse (by simpa using hc) h2
  have := List.reverse_infix.mpr h3
  simpa using this

theorem lastIndex_single_append (c : Char) (a b : Text) (hb : c ∉ b) :
    lastIndex (a ++ c :: b) [c] = some a.length := by
  induction a with
  | nil =>
    have hn : lastIndex b [c] = none := by
      rw [lastIndex_eq_none_iff]
      intro hinf
      obtain ⟨u, v, huv⟩ := hinf
      exact hb (by rw [← huv]; simp)
    simp only [List.nil_append, List.length_nil]
    unfold lastIndex
    rw [hn]
    simp [List.isPrefixOf]
  | cons y ys ih =>
    simp only [List.cons_append, List.length_cons]
    unfold lastIndex
    rw [ih]

theorem trimSpace_isInfix (s : Text) : trimSpace s <:+: s :=
  (List.rdropWhile_prefix isSpace _).isInfix.trans (List.dropWhile_suffix isSpace).isInfix

theorem dropThinking_suffix (s : Text) : dropThinking s <:+ s := by
  unfold dropThinking
  cases lastIndex s thinkClose with
  | none => exact List.suffix_refl s
  | some idx => exact List.drop_suffix _ s

theorem stripFence_isInfix (s : Text) : stripFence s <:+: s := by
  unfold stripFence
  split
  · have h1 : List.drop fence.length s <:+: s := (List.drop_suffix _ s).isInfix
    have h2 : ∀ p : Text, (match index p "\n".toList with
        | some nl => p.drop (nl + 1)
        | none => p) <:+: p := by
      intro p
      cases index p "\n".toList with
      | none => exact List.infix_refl p
      | some nl => exact (List.drop_suffix _ p).isInfix
    have h3 : ∀ p : Text, (match lastIndex p fence with
        | some idx => p.take idx
        | none => p) <:+: p := by
      intro p
      cases lastIndex p fence with
      | none => exact List.infix_refl p
      | some nl => exact (List.take_prefix _ p).isInfix
    exact ((h3 _).trans (h2 _)).trans h1
  · exact List.infix_refl s

theorem sliceObject_isInfix (s : Text) : sliceObject s <:+: s := by
  unfold sliceObject
  cases index s "\x7b".toList with
  | none => exact List.infix_refl s
  | some i =>
    cases lastIndex s "\x7d".toList with
    | none => exact List.infix_refl s
    | some j =>
      simp only
      split
      · exact (List.drop_suffix _ _).isInfix.trans (List.take_prefix _ s).isInfix
      · exact List.infix_refl s

theorem extractJSON_isInfix (s : Text) : extractJSON s <:+: s :=
  (sliceObject_isInfix _).trans ((stripFence_isInfix _).trans
    ((trimSpace_isInfix _).trans (dropThinking_suffix s).isInfix))

theorem lastIndex_append_no_overlap (c : Char) (w pre post : Text) (hc : c ∉ w)
    (hpost : ¬ (c :: w) <:+: post) :
    lastIndex (pre ++ (c :: w) ++ post) (c :: w) = some pre.length := by
  induction pre with
  | nil =>
    have hn : lastIndex (w ++ post) (c :: w) = none := by
      rw [lastIndex_eq_none_iff]
      exact fun hinf => hpost (infix_of_head_not_mem c w w post hc hinf)
    have hp : List.isPrefixOf (c :: w) (c :: (w ++ post)) = true :=
      List.isPrefixOf_iff_prefix.mpr ⟨post, by simp⟩
    simp only [List.nil_append, List.length_nil, List.cons_append]
    unfold lastIndex
    rw [hn]
    simp only [hp, if_true]
  | cons y ys ih =>
    simp only [List.cons_append, List.length_cons]
    simp only [List.cons_append] at ih
    unfold lastIndex
    rw [ih]

theorem thinkClose_eq : thinkClose = '<' :: "/think>".toList := by decide

theorem thinkClose_eq_concat : thinkClose = "</think".toList ++ ['>'] := by decide

theorem dropThinking_of_absent (s : Text) (h : ¬ thinkClose <:+: s) : dropThinking s = s := by
  unfold dropThinking
  rw [(lastIndex_eq_none_iff s thinkClose).mpr h]

theorem dropThinking_after_marker (pre post : Text) (h : ¬ thinkClose <:+: post) :
    dropThinking (pre ++ thinkClose ++ post) = post := by
  have hl : lastIndex (pre ++ thinkClose ++ post) thinkClose = some pre.length := by
    rw [thinkClose_eq] at h ⊢
    exact lastIndex_append_no_overlap '<' _ pre post (by decide) h
  unfold dropThinking
  rw [hl]
  simp [List.append_assoc]

theorem trimSpace_of_ends (a b : Char) (mid : Text) (ha : isSpace a = false)
    (hb : isSpace b = false) : trimSpace (a :: (mid ++ [b])) = a :: (mid ++ [b]) := by
  unfold trimSpace
  have h1 : List.dropWhile isSpace (a :: (mid ++ [b])) = a :: (mid ++ [b]) := by
    simp [List.dropWhile, ha]
  rw [h1]
  have h2 : a :: (mid ++ [b]) = (a :: mid) ++ [b] := by simp
  rw [h2, List.rdropWhile_concat_neg]
  simp [hb]

theorem sliceObject_of_no_pair (p : Text) (h : ¬ HasBracePair p) : sliceObject p = p := by
  unfold sliceObject
  cases hi : index p "\x7b".toList with
  | none => rfl
  | some i =>
    cases hj : lastIndex p "\x7d".toList with
    | none => rfl
    | some j =>
      simp only
      split
      · rename_i hij
        exfalso
        obtain ⟨a, b, hab, ha⟩ := index_single_some '{' p i hi
        obtain ⟨a2, b2, hab2, ha2⟩ := lastIndex_single_some '}' p j hj
        have heq : a ++ '{' :: b = a2 ++ '}' :: b2 := hab.symm.trans hab2
        rcases List.append_eq_append_iff.mp heq with ⟨m, hm1, hm2⟩ | ⟨m, hm1, hm2⟩
        · cases m with
          | nil => simp at hm2
          | cons x xs =>
            simp only [List.cons_append, List.cons.injEq] at hm2
            apply h
            refine ⟨a, xs, b2, ?_⟩
            rw [hab2, hm1, ← hm2.1]
        · have : a.length = a2.length + m.length := by rw [hm1]; simp
          cases m with
          | nil =>
            simp at hm2
          | cons x xs =>
            simp at this
            omega
      · rfl

theorem HasBracePair_of_isInfix (p s : Text) (hp : p <:+: s) (h : HasBracePair p) :
    HasBracePair s := by
  obtain ⟨a, b, c, habc⟩ := h
  obtain ⟨u, v, huv⟩ := hp
  exact ⟨u ++ a, b, c ++ v, by rw [← huv, habc]; simp⟩

theorem sliceObject_braced (mid t : Text) (ht : '}' ∉ t) :
    sliceObject ('{' :: (mid ++ '}' :: t)) = '{' :: (mid ++ ['}']) := by
  have hi : index ('{' :: (mid ++ '}' :: t)) "\x7b".toList = some 0 := by
    unfold index
    simp [List.isPrefixOf]
  have hj : lastIndex ('{' :: (mid ++ '}' :: t)) "\x7d".toList = some (mid.length + 1) := by
    have := lastIndex_single_append '}' ('{' :: mid) t ht
    simpa using this
  unfold sliceObject
  rw [hi, hj]
  simp only [gt_iff_lt, Nat.zero_lt_succ, if_true, List.drop_zero]
  have : '{' :: (mid ++ '}' :: t) = ('{' :: (mid ++ ['}'])) ++ t := by simp
  rw [this, List.take_left']
  simp

theorem stripFence_of_not_fenced (c : Char) (s : Text) (hc : c ≠ '`') :
    stripFence (c :: s) = c :: s := by
  unfold stripFence hasPrefix
  have : List.isPrefixOf fence (c :: s) = false := by
    simp [fence, List.isPrefixOf]
    intro h
    exact absurd h.symm hc
  simp [this]

theorem stripFence_fencedJSON (o : Text) : stripFence (fencedJSON o) = o ++ ['\n'] := by
  have h0 : fencedJSON o = '`' :: '`' :: '`' :: 'j' :: 's' :: 'o' :: 'n' :: '\n' ::
      ((o ++ ['\n']) ++ fence) := by
    simp [fencedJSON, fence]
  have hpre : hasPrefix (fencedJSON o) fence = true := by
    rw [h0]; simp [hasPrefix, fence, List.isPrefixOf]
  have hdrop : List.drop fence.length (fencedJSON o) =
      'j' :: 's' :: 'o' :: 'n' :: '\n' :: ((o ++ ['\n']) ++ fence) := by
    rw [h0]; rfl
  have hidx : index ('j' :: 's' :: 'o' :: 'n' :: '\n' :: ((o ++ ['\n']) ++ fence)) "\n".toList
      = some 4 := by
    simp [index, List.isPrefixOf]
  have hl := lastIndex_append_self (o ++ ['\n']) fence (by decide)
  unfold stripFence
  simp only [hpre, if_true, hdrop, hidx, List.drop_succ_cons, List.drop_zero, hl]
  exact List.take_left' rfl

theorem stripFence_fencedPlain (o : Text) : stripFence (fencedPlain o) = o ++ ['\n'] := by
  have h0 : fencedPlain o = '`' :: '`' :: '`' :: '\n' :: ((o ++ ['\n']) ++ fence) := by
    simp [fencedPlain, fence]
  have hpre : hasPrefix (fencedPlain o) fence = true := by
    rw [h0]; simp [hasPrefix, fence, List.isPrefixOf]
  have hdrop : List.drop fence.length (fencedPlain o) = '\n' :: ((o ++ ['\n']) ++ fence) := by
    rw [h0]; rfl
  have hidx : index ('\n' :: ((o ++ ['\n']) ++ fence)) "\n".toList = some 0 := by
    simp [index, List.isPrefixOf]
  have hl := lastIndex_append_self (o ++ ['\n']) fence (by decide)
  unfold stripFence
  simp only [hpre, if_true, hdrop, hidx, List.drop_succ_cons, List.drop_zero, hl]
  exact List.take_left' rfl

/-- A text that begins with an opening brace and ends with a closing one. -/
theorem braced_shape (o : Text) (h1 : o.head? = some '{') (h2 : o.getLast? = some '}') :
    ∃ mid, o = '{' :: (mid ++ ['}']) := by
  cases o with
  | nil => simp at h1
  | cons x xs =>
    simp only [List.head?_cons, Option.some.injEq] at h1
    subst h1
    rcases List.eq_nil_or_concat xs with hx | ⟨mid, c, hx⟩
    · subst hx
      simp at h2
    · subst hx
      refine ⟨mid, ?_⟩
      have : ('{' :: (mid ++ [c])).getLast? = some c := by
        rw [← List.cons_append, List.getLast?_append]
        simp
      rw [List.concat_eq_append] at h2 ⊢
      rw [this] at h2
      simp only [Option.some.injEq] at h2
      rw [h2]

theorem thinkClose_absent_fenced (a o b : Text) (ha : '<' ∉ a) (hb : '>' ∉ b)
    (ho : ¬ thinkClose <:+: o) : ¬ thinkClose <:+: a ++ o ++ b := by
  intro h
  rw [thinkClose_eq, List.append_assoc] at h
  have h1 := infix_of_head_not_mem '<' _ a (o ++ b) ha h
  rw [← thinkClose_eq, thinkClose_eq_concat] at h1
  have h2 := infix_of_last_not_mem '>' _ b o hb h1
  rw [← thinkClose_eq_concat] at h2
  exact ho h2

theorem extractJSON_braced (mid : Text) (h : ¬ thinkClose <:+: '{' :: (mid ++ ['}'])) :
    extractJSON ('{' :: (mid ++ ['}'])) = '{' :: (mid ++ ['}']) := by
  unfold extractJSON
  rw [dropThinking_of_absent _ h, trimSpace_of_ends _ _ _ (by decide) (by decide),
    stripFence_of_not_fenced _ _ (by decide)]
  exact sliceObject_braced mid [] (by simp)

theorem extractJSON_fencedJSON (mid : Text) (h : ¬ thinkClose <:+: '{' :: (mid ++ ['}'])) :
    extractJSON (fencedJSON ('{' :: (mid ++ ['}']))) = '{' :: (mid ++ ['}']) := by
  have hno : ¬ thinkClose <:+: fencedJSON ('{' :: (mid ++ ['}'])) :=
    thinkClose_absent_fenced _ _ _ (by decide) (by decide) h
  have htrim : trimSpace (fencedJSON ('{' :: (mid ++ ['}']))) = fencedJSON ('{' :: (mid ++ ['}'])) := by
    have : fencedJSON ('{' :: (mid ++ ['}'])) =
        '`' :: (("``json\n".toList ++ ('{' :: (mid ++ ['}'])) ++ "\n``".toList) ++ ['`']) := by
      simp [fencedJSON]
    rw [this]
    exact trimSpace_of_ends _ _ _ (by decide) (by decide)
  unfold extractJSON
  rw [dropThinking_of_absent _ hno, htrim, stripFence_fencedJSON]
  have := sliceObject_braced mid ['\n'] (by decide)
  simpa using this

theorem extractJSON_fencedPlain (mid : Text) (h : ¬ thinkClose <:+: '{' :: (mid ++ ['}'])) :
    extractJSON (fencedPlain ('{' :: (mid ++ ['}']))) = '{' :: (mid ++ ['}']) := by
  have hno : ¬ thinkClose <:+: fencedPlain ('{' :: (mid ++ ['}'])) :=
    thinkClose_absent_fenced _ _ _ (by decide) (by decide) h
  have htrim : trimSpace (fencedPlain ('{' :: (mid ++ ['}']))) = fencedPlain ('{' :: (mid ++ ['}'])) := by
    have : fencedPlain ('{' :: (mid ++ ['}'])) =
        '`' :: (("``\n".toList ++ ('{' :: (mid ++ ['}'])) ++ "\n``".toList) ++ ['`']) := by
      simp [fencedPlain]
    rw [this]
    exact trimSpace_of_ends _ _ _ (by decide) (by decide)
  unfold extractJSON
  rw [dropThinking_of_absent _ hno, htrim, stripFence_fencedPlain]
  have := sliceObject_braced mid ['\n'] (by decide)
  simpa using this

theorem excessBits_spec (fuel n : Nat) (h : n < 2 ^ (53 + fuel)) :
    n < 2 ^ (53 + excessBits fuel n) ∧
      (excessBits fuel n = 0 ∨ 2 ^ (52 + excessBits fuel n) ≤ n) := by
  induction fuel generalizing n with
  | zero => exact ⟨by simpa [excessBits] using h, Or.inl rfl⟩
  | succ f ih =>
    unfold excessBits
    by_cases hn : n < 2 ^ 53
    · rw [if_pos hn]
      exact ⟨hn, Or.inl rfl⟩
    · rw [if_neg hn]
      have h2 : n / 2 < 2 ^ (53 + f) := by
        have : 2 ^ (53 + (f + 1)) = 2 * 2 ^ (53 + f) := by ring
        rw [this] at h
        omega
      obtain ⟨ih1, ih2⟩ := ih (n / 2) h2
      have e1 : 2 ^ (53 + (excessBits f (n / 2) + 1)) = 2 * 2 ^ (53 + excessBits f (n / 2)) := by
        ring
      have e2 : 2 ^ (52 + (excessBits f (n / 2) + 1)) = 2 * 2 ^ (52 + excessBits f (n / 2)) := by
        ring
      refine ⟨by rw [e1]; omega, Or.inr ?_⟩
      rw [e2]
      rcases ih2 with h0 | hge
      · rw [h0]
        have : (2 : Nat) * 2 ^ (52 + 0) = 2 ^ 53 := by norm_num
        omega
      · omega

theorem excessBits_self (n : Nat) :
    excessBits n n = 0 ∨ 2 ^ (52 + excessBits n n) ≤ n := by
  have h : n < 2 ^ (53 + n) :=
    lt_of_lt_of_le (Nat.lt_two_pow n) (Nat.pow_le_pow_right (by norm_num) (by omega))
  exact (excessBits_spec n n h).2

theorem roundFloat64_of_lt (n : Nat) (h : n < 2 ^ 53) : roundFloat64 n = n := by
  have he : excessBits n n = 0 := by
    cases n with
    | zero => rfl
    | succ m => unfold excessBits; rw [if_pos h]
  unfold roundFloat64
  simp [he, Nat.mod_one]

/-- The rounded value lies between the two neighbours of `n` on the grid of
step `2 ^ e`, where `e` counts the bits of `n` beyond 53. -/
theorem roundFloat64_bounds (n : Nat) :
    ∃ e, (e = 0 ∨ 2 ^ (52 + e) ≤ n) ∧ n / 2 ^ e * 2 ^ e ≤ roundFloat64 n ∧
      roundFloat64 n ≤ (n / 2 ^ e + 1) * 2 ^ e := by
  refine ⟨excessBits n n, excessBits_self n, ?_, ?_⟩
  · unfold roundFloat64
    simp only
    split
    · exact Nat.mul_le_mul_right _ (Nat.le_succ _)
    · exact le_refl _
  · unfold roundFloat64
    simp only
    split
    · exact le_refl _
    · exact Nat.mul_le_mul_right _ (Nat.le_succ _)

theorem roundFloat64_crude (n : Nat) : n ≤ 2 * roundFloat64 n ∧ roundFloat64 n ≤ 2 * n := by
  rcases Nat.eq_zero_or_pos n with h0 | hpos
  · subst h0
    simp [roundFloat64_of_lt 0 (by norm_num)]
  obtain ⟨e, he, hlo, hhi⟩ := roundFloat64_bounds n
  have hP : 0 < 2 ^ e := Nat.two_pow_pos e
  have hPn : 2 ^ e ≤ n := by
    rcases he with h0 | hge
    · subst h0; simpa using hpos
    · exact le_trans (Nat.pow_le_pow_right (by norm_num) (by omega)) hge
  have hq : 1 ≤ n / 2 ^ e := (Nat.one_le_div_iff hP).mpr hPn
  have h1 : n / 2 ^ e * 2 ^ e ≤ n := Nat.div_mul_le_self n _
  have h2 : n < (n / 2 ^ e + 1) * 2 ^ e := by
    have := Nat.lt_succ_self (n / 2 ^ e)
    exact (Nat.div_lt_iff_lt_mul hP).mp this
  have h3 : (n / 2 ^ e + 1) * 2 ^ e ≤ 2 * (n / 2 ^ e * 2 ^ e) := by
    have : n / 2 ^ e + 1 ≤ 2 * (n / 2 ^ e) := by omega
    calc (n / 2 ^ e + 1) * 2 ^ e ≤ (2 * (n / 2 ^ e)) * 2 ^ e := Nat.mul_le_mul_right _ this
      _ = 2 * (n / 2 ^ e * 2 ^ e) := by ring
  constructor <;> omega

theorem scaleLen_le (n : Nat) : scaleLen n ≤ n := by
  unfold scaleLen
  have h1 := (roundFloat64_crude n).2
  have h2 := (roundFloat64_crude (roundFloat64 n * point2)).2
  have h3 : roundFloat64 n * point2 ≤ 2 * n * point2 := Nat.mul_le_mul_right _ h1
  apply Nat.div_le_of_le_mul
  simp only [point2] at h2 h3 ⊢
  norm_num at h2 h3 ⊢
  omega

theorem scaleLen_large (n : Nat) (h : 2 ^ 50 ≤ n) : 2 ≤ scaleLen n := by
  unfold scaleLen
  have h1 := (roundFloat64_crude n).1
  have h2 := (roundFloat64_crude (roundFloat64 n * point2)).1
  have h3 : n * point2 ≤ 2 * roundFloat64 n * point2 := Nat.mul_le_mul_right _ h1
  rw [Nat.le_div_iff_mul_le (by norm_num)]
  simp only [point2] at h2 h3 ⊢
  norm_num at h h2 h3 ⊢
  omega

/-- Below `2 ^ 50` the float64 product truncates to the integer quotient by 5. -/
theorem scaleLen_eq_div (n : Nat) (h : n < 2 ^ 50) : scaleLen n = n / 5 := by
  unfold scaleLen
  rw [roundFloat64_of_lt n (lt_trans h (by norm_num))]
  obtain ⟨e, he, hlo, hhi⟩ := roundFloat64_bounds (n * point2)
  have hc : point2 = 3602879701896397 := rfl
  have hP : 0 < 2 ^ e := Nat.two_pow_pos e
  -- the grid step is at most `n` and divides `2 ^ 54`
  have he54 : e ≤ 54 ∧ (e = 0 ∨ 2 ^ e ≤ n) := by
    rcases he with h0 | hge
    · exact ⟨by omega, Or.inl h0⟩
    · have hlt : n * point2 < 2 ^ 50 * 2 ^ 52 := by
        rw [hc]
        calc n * 3602879701896397 ≤ n * 2 ^ 52 := Nat.mul_le_mul_left _ (by norm_num)
          _ < 2 ^ 50 * 2 ^ 52 := Nat.mul_lt_mul_of_pos_right h (by norm_num)
      have hpow : 2 ^ (52 + e) < 2 ^ (50 + 52) := by
        rw [Nat.pow_add 2 50 52]
        exact lt_of_le_of_lt hge hlt
      have he50 : 52 + e < 50 + 52 := (Nat.pow_lt_pow_iff_right (by norm_num)).mp hpow
      refine ⟨by omega, Or.inr ?_⟩
      have h5 : 2 ^ e * 2 ^ 52 ≤ n * 2 ^ 52 := by
        calc 2 ^ e * 2 ^ 52 = 2 ^ (52 + e) := by ring
          _ ≤ n * point2 := hge
          _ ≤ n * 2 ^ 52 := by rw [hc]; exact Nat.mul_le_mul_left _ (by norm_num)
      exact Nat.le_of_mul_le_mul_right h5 (by norm_num)
  obtain ⟨he54, hPn⟩ := he54
  have hPn2 : 2 ^ e ≤ n + 1 := by
    rcases hPn with h0 | hle
    · subst h0; simp
    · omega
  have hsplit : 2 ^ 54 = 2 ^ (54 - e) * 2 ^ e := by
    rw [← Nat.pow_add]; congr 1; omega
  -- lower neighbour: a multiple of the step below the product
  have hk : n / 5 * 2 ^ 54 ≤ n * point2 := by
    rw [hc]; norm_num; omega
  have hlow : n / 5 * 2 ^ 54 ≤ n * point2 / 2 ^ e * 2 ^ e := by
    have : n / 5 * 2 ^ (54 - e) ≤ n * point2 / 2 ^ e := by
      rw [Nat.le_div_iff_mul_le hP]
      calc n / 5 * 2 ^ (54 - e) * 2 ^ e = n / 5 * 2 ^ 54 := by rw [hsplit]; ring
        _ ≤ n * point2 := hk
    calc n / 5 * 2 ^ 54 = n / 5 * 2 ^ (54 - e) * 2 ^ e := by rw [hsplit]; ring
      _ ≤ n * point2 / 2 ^ e * 2 ^ e := Nat.mul_le_mul_right _ this
  -- upper neighbour: at most one step above the product
  have hup : (n * point2 / 2 ^ e + 1) * 2 ^ e ≤ n * point2 + 2 ^ e := by
    have := Nat.div_mul_le_self (n * point2) (2 ^ e)
    calc (n * point2 / 2 ^ e + 1) * 2 ^ e = n * point2 / 2 ^ e * 2 ^ e + 2 ^ e := by ring
      _ ≤ n * point2 + 2 ^ e := by omega
  have hR1 : n / 5 * 2 ^ 54 ≤ roundFloat64 (n * point2) := le_trans hlow hlo
  have hR2 : roundFloat64 (n * point2) ≤ n * point2 + (n + 1) :=
    le_trans hhi (le_trans hup (by omega))
  simp only [point2] at hR1 hR2 ⊢
  norm_num at h hR1 hR2 ⊢
  omega

theorem scaleLen_ge_two (n : Nat) (h : 10 ≤ n) : 2 ≤ scaleLen n := by
  by_cases hn : n < 2 ^ 50
  · rw [scaleLen_eq_div n hn]; omega
  · exact scaleLen_large n (by omega)

theorem dropCount_pos (n : Nat) : 1 ≤ dropCount n := by
  unfold dropCount
  split <;> omega

/-- The slice bound of `history[dropCount:]` holds for every non-empty history. -/
theorem dropCount_le (n : Nat) (h : 1 ≤ n) : dropCount n ≤ n := by
  unfold dropCount
  have := scaleLen_le n
  split <;> omega

theorem dropCount_eq (n : Nat) (h : n < 2 ^ 50) : dropCount n = max 1 (n / 5) := by
  unfold dropCount
  rw [scaleLen_eq_div n h]
  split <;> omega

theorem dropCount_ge_two (n : Nat) (h : 10 ≤ n) : 2 ≤ dropCount n := by
  unfold dropCount
  have := scaleLen_ge_two n h
  split <;> omega

theorem trimHistory_of_over (limit : Int) (history : List Message) (hpos : 0 < limit)
    (hover : limit < (history.length : Int)) :
    trimHistory limit history = history.drop (dropCount history.length) := by
  unfold trimHistory
  rw [if_pos ⟨hpos, hover⟩]

theorem trimHistory_of_not_over (limit : Int) (history : List Message)
    (h : limit ≤ 0 ∨ (history.length : Int) ≤ limit) : trimHistory limit history = history := by
  unfold trimHistory
  rw [if_neg]
  intro ⟨h1, h2⟩
  omega

/-- Appending one exchange to a history of at most `max limit 8` turns and
trimming leaves at most `max limit 8` turns, for every limit above 0. -/
theorem trimHistory_append_le (limit : Int) (h : List Message) (u a : Message)
    (hpos : 0 < limit) (hlen : (h.length : Int) ≤ max limit 8) :
    ((trimHistory limit (h ++ [u, a])).length : Int) ≤ max limit 8 := by
  have hL : (h ++ [u, a]).length = h.length + 2 := by simp
  by_cases hover : limit < ((h ++ [u, a]).length : Int)
  · rw [trimHistory_of_over limit _ hpos hover, List.length_drop, hL]
    have h1 := dropCount_pos (h.length + 2)
    have h2 := dropCount_le (h.length + 2) (by omega)
    by_cases h10 : 10 ≤ h.length + 2
    · have h3 := dropCount_ge_two (h.length + 2) h10
      omega
    · omega
  · rw [trimHistory_of_not_over limit _ (Or.inr (by omega))]
    omega

theorem writeHistory_bounded (limit : Int) (o : WriteOutcome) (old : HistoryFile)
    (h : List Message) (hold : Bounded limit old) (hlim : 0 ≤ limit)
    (hh : (h.length : Int) ≤ limit) : Bounded limit (writeHistory o old h) := by
  cases o <;> simp [writeHistory, Bounded, loaded, hh, hlim] <;> exact hold

/-- A turn leaves the machine as it was, or runs the commands of the decoded
action and writes the trimmed history with the new exchange appended, and
the latter only when the turn does not fail. -/
theorem dispatchToModel_history {S : Type} (env : Env S) (conf : Config)
    (cwd systemPrompt prompt : Text) (w : World S) :
    (dispatchToModel env conf cwd systemPrompt prompt w).world = w ∨
    (¬ TurnFails env conf systemPrompt prompt (loaded w.history) ∧
      ∃ content cmds, (dispatchToModel env conf cwd systemPrompt prompt w).world.history =
        writeHistory env.writeOutcome (executeIfAny env cwd cmds w).2.history
          (trimHistory conf.ContextFileLimit
            (loaded w.history ++ [⟨"user".toList, prompt⟩, ⟨"assistant".toList, content⟩]))) := by
  unfold dispatchToModel TurnFails
  split
  · exact Or.inl rfl
  · exact Or.inl rfl
  · simp only
    cases hr : env.chat (chatURL conf) conf.Model
        (assemble systemPrompt (loaded w.history) prompt) with
    | payloadError e => exact Or.inl rfl
    | requestError e => exact Or.inl rfl
    | sendError e => exact Or.inl rfl
    | badStatus st b => exact Or.inl rfl
    | unreadableBody e => exact Or.inl rfl
    | ok body =>
      simp only
      cases hb : env.unmarshalBody body with
      | none => exact Or.inl rfl
      | some respObj =>
        simp only
        by_cases hc : assistantContent respObj = []
        · rw [if_pos hc]; exact Or.inl rfl
        · rw [if_neg hc]
          cases ha : env.unmarshalAction (extractJSON (assistantContent respObj)) with
          | none => exact Or.inl rfl
          | some cr =>
            refine Or.inr ⟨?_, assistantContent respObj, cr.Commands, rfl⟩
            simp [hc]

theorem invocations_executeLoop {S : Type} (env : Env S) (cwd : Text) (cmds : List Text)
    (w : World S) : invocations (executeLoop env cwd cmds w).1 = cmds := by
  induction cmds generalizing w with
  | nil => rfl
  | cons c rest ih =>
    unfold executeLoop
    simp only [invocations, List.filterMap_append, List.filterMap_cons, List.filterMap_nil]
    have h := ih (env.shell cwd c w).2
    simp only [invocations] at h
    rw [h]
    cases (env.shell cwd c w).1.err <;> simp

/-- The loop of main leaves the machine that results from applying the
shell to the commands one after another. -/
theorem world_executeLoop {S : Type} (env : Env S) (cwd : Text) (cmds : List Text)
    (w : World S) :
    (executeLoop env cwd cmds w).2 = cmds.foldl (fun st c => (env.shell cwd c st).2) w := by
  induction cmds generalizing w with
  | nil => rfl
  | cons c rest ih =>
    unfold executeLoop
    simp only [List.foldl_cons]
    exact ih (env.shell cwd c w).2

/-- The loop of main writes to standard error the diagnostics of the
invocations that returned an error, and nothing else. -/
theorem stderrs_executeLoop {S : Type} (env : Env S) (cwd : Text) (cmds : List Text)
    (w : World S) :
    stderrs (executeLoop env cwd cmds w).1 = (outcomes env cwd cmds w).filterMap report := by
  induction cmds generalizing w with
  | nil => rfl
  | cons c rest ih =>
    unfold executeLoop outcomes
    simp only [stderrs, List.filterMap_append, List.filterMap_cons, List.filterMap_nil]
    have h := ih (env.shell cwd c w).2
    simp only [stderrs] at h
    rw [h]
    cases herr : (env.shell cwd c w).1.err <;> simp [report, herr]

theorem invocations_executeFrom {S : Type} (env : Env S) (cwd : Text) (cmds : List Text)
    (sb : Text) (w : World S) :
    invocations (command.executeFrom env cwd cmds sb w).2.1 = cmds := by
  induction cmds generalizing sb w with
  | nil => rfl
  | cons c rest ih =>
    unfold command.executeFrom
    simp only [invocations, List.filterMap_cons]
    have h := ih ((if (env.shell cwd c w).1.out.getLast? = some '\n' then sb ++ (env.shell cwd c w).1.out
      else sb ++ (env.shell cwd c w).1.out ++ "\n".toList)) (env.shell cwd c w).2
    simp only [invocations] at h
    rw [h]

theorem stderrs_executeFrom {S : Type} (env : Env S) (cwd : Text) (cmds : List Text)
    (sb : Text) (w : World S) :
    stderrs (command.executeFrom env cwd cmds sb w).2.1 = [] := by
  induction cmds generalizing sb w with
  | nil => rfl
  | cons c rest ih =>
    unfold command.executeFrom
    simp only [stderrs, List.filterMap_cons]
    have h := ih ((if (env.shell cwd c w).1.out.getLast? = some '\n' then sb ++ (env.shell cwd c w).1.out
      else sb ++ (env.shell cwd c w).1.out ++ "\n".toList)) (env.shell cwd c w).2
    simp only [stderrs] at h
    rw [h]

theorem world_executeFrom {S : Type} (env : Env S) (cwd : Text) (cmds : List Text)
    (sb : Text) (w : World S) :
    (command.executeFrom env cwd cmds sb w).2.2 =
      cmds.foldl (fun st c => (env.shell cwd c st).2) w := by
  induction cmds generalizing sb w with
  | nil => rfl
  | cons c rest ih =>
    unfold command.executeFrom
    simp only [List.foldl_cons]
    exact ih _ (env.shell cwd c w).2

/-- The text `ExecuteCommands` builds is made of the outputs of the
invocations alone. -/
theorem text_executeFrom {S : Type} (env : Env S) (cwd : Text) (cmds : List Text)
    (sb : Text) (w : World S) :
    (command.executeFrom env cwd cmds sb w).1 = sb ++ combined (outcomes env cwd cmds w) := by
  induction cmds generalizing sb w with
  | nil => simp [command.executeFrom, outcomes, combined]
  | cons c rest ih =>
    unfold command.executeFrom outcomes combined
    simp only
    rw [ih]
    unfold terminated
    split <;> simp [List.append_assoc]

theorem invocations_executeIfAny {S : Type} (env : Env S) (cwd : Text) (cmds : List Text)
    (w : World S) : invocations (executeIfAny env cwd cmds w).1 = cmds := by
  unfold executeIfAny
  split
  · simp only [invocations, List.filterMap_append, List.filterMap_cons, List.filterMap_nil]
    have h := invocations_executeLoop env cwd cmds w
    simp only [invocations] at h
    rw [h]
    simp
  · rename_i h
    have : cmds = [] := by
      cases cmds with
      | nil => rfl
      | cons c r => simp at h
    rw [this]; rfl

theorem world_executeIfAny {S : Type} (env : Env S) (cwd : Text) (cmds : List Text)
    (w : World S) : (executeIfAny env cwd cmds w).2 = (executeLoop env cwd cmds w).2 := by
  unfold executeIfAny
  split
  · rfl
  · rename_i h
    have : cmds = [] := by
      cases cmds with
      | nil => rfl
      | cons c r => simp at h
    rw [this]; rfl

theorem stderrs_executeIfAny {S : Type} (env : Env S) (cwd : Text) (cmds : List Text)
    (w : World S) :
    stderrs (executeIfAny env cwd cmds w).1 = stderrs (executeLoop env cwd cmds w).1 := by
  unfold executeIfAny
  split
  · simp [stderrs]
  · rename_i h
    have : cmds = [] := by
      cases cmds with
      | nil => rfl
      | cons c r => simp at h
    rw [this]; rfl

theorem history_executeLoop {S : Type} (env : Env S) (cwd : Text) (cmds : List Text)
    (w : World S) (hkeep : KeepsHistory env) :
    (executeLoop env cwd cmds w).2.history = w.history := by
  induction cmds generalizing w with
  | nil => rfl
  | cons c rest ih =>
    unfold executeLoop
    simp only
    rw [ih, hkeep]

theorem iteration_bounded {S : Type} (env : Env S) (conf : Config)
    (promptKey cwd systemPrompt : Text) (read : ReadResult) (w : World S)
    (hpos : 0 < conf.ContextFileLimit) (hkeep : KeepsHistory env)
    (hw : Bounded (max conf.ContextFileLimit 8) w.history) :
    Bounded (max conf.ContextFileLimit 8)
      (iteration env conf promptKey cwd systemPrompt read w).world.history := by
  unfold iteration
  split
  · exact hw
  · exact hw
  · simp only
    split
    · exact hw
    · split
      · rw [history_executeLoop env cwd _ w hkeep]; exact hw
      · split
        · exact writeHistory_bounded _ _ _ _ hw (by omega) (by simp)
        · split
          · exact hw
          · split
            · exact hw
            · rename_i tmpl _
              rcases dispatchToModel_history env conf cwd systemPrompt
                (replaceAll tmpl "\x7b\x7binput\x7d\x7d".toList (trimSpace _)) w with
                h | ⟨_, c, cmds, h⟩
              · rw [h]; exact hw
              · rw [h]
                have hold : Bounded (max conf.ContextFileLimit 8)
                    (executeIfAny env cwd cmds w).2.history := by
                  rw [world_executeIfAny, history_executeLoop env cwd cmds w hkeep]
                  exact hw
                exact writeHistory_bounded _ _ _ _ hold (by omega)
                  (trimHistory_append_le _ _ _ _ hpos hw)

/-- For every limit above 0, a session that starts with at most
`max limit 8` turns in the history file and whose commands leave that file
alone keeps it so, whatever is typed and whatever the backend answers. -/
theorem runLoop_bounded {S : Type} (conf : Config) (promptKey cwd : Text)
    (passes : List (Pass S)) (w : World S) (hpos : 0 < conf.ContextFileLimit)
    (hkeep : ∀ p ∈ passes, KeepsHistory p.env)
    (hw : Bounded (max conf.ContextFileLimit 8) w.history) :
    Bounded (max conf.ContextFileLimit 8)
      (runLoop conf promptKey cwd passes w).1.history := by
  induction passes generalizing w with
  | nil => exact hw
  | cons p rest ih =>
    unfold runLoop
    have hb := iteration_bounded p.env conf promptKey cwd p.systemPrompt p.read w hpos
      (hkeep p (List.mem_cons_self _ _)) hw
    simp only
    split
    · exact hb
    · exact ih _ (fun q hq => hkeep q (List.mem_cons_of_mem _ hq)) hb

theorem keepsHistory_echoEnv : KeepsHistory echoEnv := fun _ _ _ => rfl

/-- With any limit from 1 to 7, eight successful turns from the empty
history leave more turns in the history file than the limit. -/
theorem small_limits_exceeded :
    ∀ l : Fin 7, ¬ Bounded ((l.val : Int) + 1)
      (runLoop (configWith ((l.val : Int) + 1)) "default".toList []
        (List.replicate 8 (echoPass "a".toList)) ⟨HistoryFile.stored [], ()⟩).1.history := by
  unfold Bounded
  decide

/-- At startup a missing history file is created empty, every other file
is left as it is. -/
theorem startup_creates_missing :
    startup WriteOutcome.done HistoryFile.missing = some (HistoryFile.stored []) ∧
    ∀ o f, f ≠ HistoryFile.missing → startup o f = some f := by
  refine ⟨rfl, ?_⟩
  intro o f hf
  cases f <;> first | exact absurd rfl hf | rfl

theorem exists_last_marker_of_le (n : Nat) (s : Text) (hn : s.length ≤ n)
    (h : thinkClose <:+: s) :
    ∃ pre post, s = pre ++ thinkClose ++ post ∧ ¬ thinkClose <:+: post := by
  induction n generalizing s with
  | zero =>
    have := h.length_le
    simp [thinkClose] at this
    omega
  | succ m ih =>
    obtain ⟨a, b, hab⟩ := h
    by_cases hb : thinkClose <:+: b
    · have hlt : b.length ≤ m := by
        have hlen : s.length = a.length + thinkClose.length + b.length := by
          rw [← hab]; simp [Nat.add_assoc]
        have : thinkClose.length = 8 := by decide
        omega
      obtain ⟨p, q, hpq, hq⟩ := ih b hlt hb
      refine ⟨a ++ thinkClose ++ p, q, ?_, hq⟩
      rw [← hab, hpq]
      simp [List.append_assoc]
    · exact ⟨a, b, hab.symm, hb⟩

theorem exists_last_marker (s : Text) (h : thinkClose <:+: s) :
    ∃ pre post, s = pre ++ thinkClose ++ post ∧ ¬ thinkClose <:+: post :=
  exists_last_marker_of_le s.length s (le_refl _) h

/-- C2: for every model text that holds the reasoning-close marker, written
as `pre ++ "</think>" ++ post` with no marker in `post` (such a writing
exists), the extracted span is the span extracted from `post` alone, and the
marker does not occur in the extracted span. -/
theorem extractJSON_after_last_marker (s : Text) (hs : thinkClose <:+: s) :
    (∃ pre post, s = pre ++ thinkClose ++ post ∧ ¬ thinkClose <:+: post) ∧
    (∀ pre post, s = pre ++ thinkClose ++ post → ¬ thinkClose <:+: post →
      extractJSON s = extractJSON post) ∧
    ¬ thinkClose <:+: extractJSON s := by
  have hall : ∀ pre post, s = pre ++ thinkClose ++ post → ¬ thinkClose <:+: post →
      extractJSON s = extractJSON post := by
    intro pre post hsplit hpost
    unfold extractJSON
    rw [hsplit, dropThinking_after_marker pre post hpost, dropThinking_of_absent post hpost]
  refine ⟨exists_last_marker s hs, hall, ?_⟩
  obtain ⟨pre, post, hsplit, hpost⟩ := exists_last_marker s hs
  rw [hall pre post hsplit hpost]
  exact fun hin => hpost (hin.trans (extractJSON_isInfix post))

theorem extractJSON_after_last_marker_witness :
    thinkClose <:+: "plan</think> \x7b\x7d".toList ∧
    ((∃ pre post, "plan</think> \x7b\x7d".toList = pre ++ thinkClose ++ post ∧
        ¬ thinkClose <:+: post) ∧
      (∀ pre post, "plan</think> \x7b\x7d".toList = pre ++ thinkClose ++ post →
        ¬ thinkClose <:+: post → extractJSON "plan</think> \x7b\x7d".toList = extractJSON post) ∧
      ¬ thinkClose <:+: extractJSON "plan</think> \x7b\x7d".toList) :=
  ⟨⟨"plan".toList, " \x7b\x7d".toList, by decide⟩,
    extractJSON_after_last_marker "plan</think> \x7b\x7d".toList
      ⟨"plan".toList, " \x7b\x7d".toList, by decide⟩⟩

/-- C3 (as stated) fails: for the JSON object text `{"a":"</think>"}` the
fenced form and the bare form give different spans. -/
theorem fenced_span_differs_with_marker :
    markerObject.head? = some '{' ∧ markerObject.getLast? = some '}' ∧
    extractJSON markerObject = "\"\x7d".toList ∧
    extractJSON (fencedJSON markerObject) = "\"\x7d\n```".toList ∧
    extractJSON (fencedJSON markerObject) ≠ extractJSON markerObject := by
  decide

/-- C3 (amended): for every text `o` that starts with `{`, ends with `}` and
does not hold the marker `</think>`, the extractor gives the same span for
`o` in a fenced block, with the tag `json` or without a tag, as for `o`. -/
theorem fenced_span_eq (o : Text) (h1 : o.head? = some '{') (h2 : o.getLast? = some '}')
    (h3 : ¬ thinkClose <:+: o) :
    extractJSON (fencedJSON o) = extractJSON o ∧
    extractJSON (fencedPlain o) = extractJSON o := by
  obtain ⟨mid, rfl⟩ := braced_shape o h1 h2
  rw [extractJSON_fencedJSON mid h3, extractJSON_fencedPlain mid h3, extractJSON_braced mid h3]
  exact ⟨rfl, rfl⟩

theorem fenced_span_eq_witness :
    extractJSON (fencedJSON "\x7b\"commands\":[]\x7d".toList) =
      extractJSON "\x7b\"commands\":[]\x7d".toList ∧
    extractJSON (fencedPlain "\x7b\"commands\":[]\x7d".toList) =
      extractJSON "\x7b\"commands\":[]\x7d".toList :=
  fenced_span_eq "\x7b\"commands\":[]\x7d".toList (by decide) (by decide)
    ((lastIndex_eq_none_iff _ _).mp (by decide))

theorem not_hasBracePair_of_not_mem (s : Text) (h : '{' ∉ s) : ¬ HasBracePair s := by
  intro ⟨a, b, c, habc⟩
  exact h (by rw [habc]; simp)

/-- C4 (as stated) fails: a brace-free text that opens with a fence, and one
that holds a reasoning marker, are not returned as the trimmed input. -/
theorem brace_free_not_trimmed_input :
    (¬ HasBracePair fencedProse ∧ extractJSON fencedProse = "hi\n".toList ∧
      extractJSON fencedProse ≠ trimSpace fencedProse) ∧
    (¬ HasBracePair markedProse ∧ extractJSON markedProse = "b".toList ∧
      extractJSON markedProse ≠ trimSpace markedProse) :=
  ⟨⟨not_hasBracePair_of_not_mem _ (by decide), by decide, by decide⟩,
    ⟨not_hasBracePair_of_not_mem _ (by decide), by decide, by decide⟩⟩

/-- C4 (amended): for every model text in which no `{` is followed by a
later `}`, the extractor slices nothing: it returns the text left by the cut
at the last marker, the trim and the fence strip; when the text holds no
marker and its trimmed form does not open with a fence, that is the
whitespace-trimmed input. -/
theorem extractJSON_of_no_brace_pair (s : Text) (h : ¬ HasBracePair s) :
    extractJSON s = stripFence (trimSpace (dropThinking s)) ∧
    (¬ thinkClose <:+: s → hasPrefix (trimSpace s) fence = false →
      extractJSON s = trimSpace s) := by
  have hin : stripFence (trimSpace (dropThinking s)) <:+: s :=
    (stripFence_isInfix _).trans ((trimSpace_isInfix _).trans (dropThinking_suffix s).isInfix)
  have h1 : extractJSON s = stripFence (trimSpace (dropThinking s)) := by
    unfold extractJSON
    exact sliceObject_of_no_pair _ (fun hp => h (HasBracePair_of_isInfix _ s hin hp))
  refine ⟨h1, fun hm hf => ?_⟩
  rw [h1, dropThinking_of_absent s hm]
  unfold stripFence
  rw [hf]
  simp

theorem extractJSON_of_no_brace_pair_witness :
    extractJSON "  done  ".toList = stripFence (trimSpace (dropThinking "  done  ".toList)) ∧
    extractJSON "  done  ".toList = trimSpace "  done  ".toList :=
  ⟨(extractJSON_of_no_brace_pair "  done  ".toList
      (not_hasBracePair_of_not_mem _ (by decide))).1,
    (extractJSON_of_no_brace_pair "  done  ".toList
      (not_hasBracePair_of_not_mem _ (by decide))).2
      ((lastIndex_eq_none_iff _ _).mp (by decide)) (by decide)⟩

/-- C1 (as stated) fails for `command.ExecuteCommands`: the invocation of
`false` returns an error, the loop of main writes its diagnostic, and
`ExecuteCommands` returns for `false` the text it returns for `true` and
writes nothing to standard error. -/
theorem executeCommands_hides_failure :
    (bashEnv.shell [] "false".toList ⟨HistoryFile.stored [], ()⟩).1.err =
      some "exit status 1".toList ∧
    stderrs (executeLoop bashEnv [] ["false".toList] ⟨HistoryFile.stored [], ()⟩).1 =
      ["Error executing command 'false': exit status 1\n".toList] ∧
    (command.ExecuteCommands bashEnv [] ⟨["false".toList], [], []⟩
      ⟨HistoryFile.stored [], ()⟩).1 = "\n".toList ∧
    (command.ExecuteCommands bashEnv [] ⟨["true".toList], [], []⟩
      ⟨HistoryFile.stored [], ()⟩).1 = "\n".toList ∧
    stderrs (command.ExecuteCommands bashEnv [] ⟨["false".toList], [], []⟩
      ⟨HistoryFile.stored [], ()⟩).2.1 = [] := by
  decide

/-- C1 (amended): for every command list and every behaviour of the shell,
the loop of main (guarded as in the model turn, or bare as on the direct
path) and `command.ExecuteCommands` invoke exactly the commands of the list,
each once and in list order: the invocations are the list, their number is
its length, and the machine they leave is the one obtained by applying the
shell to the commands one after another, whatever each invocation returns.
The loop of main writes to standard error the diagnostic of every
invocation that returned an error; `ExecuteCommands` writes no diagnostic
and returns the outputs of the invocations, each ended by a newline. -/
theorem executors_invoke_every_command {S : Type} (env : Env S) (cwd : Text)
    (cmds : List Text) (explanation answer : Text) (w : World S) :
    (invocations (executeIfAny env cwd cmds w).1 = cmds ∧
      (invocations (executeIfAny env cwd cmds w).1).length = cmds.length ∧
      (executeIfAny env cwd cmds w).2 = cmds.foldl (fun st c => (env.shell cwd c st).2) w ∧
      stderrs (executeIfAny env cwd cmds w).1 = (outcomes env cwd cmds w).filterMap report) ∧
    (invocations (executeLoop env cwd cmds w).1 = cmds ∧
      (invocations (executeLoop env cwd cmds w).1).length = cmds.length ∧
      (executeLoop env cwd cmds w).2 = cmds.foldl (fun st c => (env.shell cwd c st).2) w ∧
      stderrs (executeLoop env cwd cmds w).1 = (outcomes env cwd cmds w).filterMap report) ∧
    (invocations (command.ExecuteCommands env cwd ⟨cmds, explanation, answer⟩ w).2.1 = cmds ∧
      (invocations (command.ExecuteCommands env cwd ⟨cmds, explanation, answer⟩ w).2.1).length =
        cmds.length ∧
      (command.ExecuteCommands env cwd ⟨cmds, explanation, answer⟩ w).2.2 =
        cmds.foldl (fun st c => (env.shell cwd c st).2) w ∧
      stderrs (command.ExecuteCommands env cwd ⟨cmds, explanation, answer⟩ w).2.1 = [] ∧
      (command.ExecuteCommands env cwd ⟨cmds, explanation, answer⟩ w).1 =
        combined (outcomes env cwd cmds w)) := by
  have h1 := invocations_executeIfAny env cwd cmds w
  have h2 := invocations_executeLoop env cwd cmds w
  have h3 : invocations (command.ExecuteCommands env cwd ⟨cmds, explanation, answer⟩ w).2.1 =
      cmds := invocations_executeFrom env cwd cmds [] w
  refine ⟨⟨h1, by rw [h1], ?_, ?_⟩, ⟨h2, by rw [h2], world_executeLoop env cwd cmds w,
    stderrs_executeLoop env cwd cmds w⟩, ⟨h3, by rw [h3], world_executeFrom env cwd cmds [] w,
    stderrs_executeFrom env cwd cmds [] w, ?_⟩⟩
  · rw [world_executeIfAny, world_executeLoop]
  · rw [stderrs_executeIfAny, stderrs_executeLoop]
  · have := text_executeFrom env cwd cmds [] w
    simpa [command.ExecuteCommands] using this

/-- C5 (as stated) fails: with limit 5 a history of 6 turns is trimmed to 5
turns, where the spec formula `L - max(1, ceil(L*0.2))` gives 4. -/
theorem trim_of_six_keeps_five :
    (0 : Int) < 5 ∧ (5 : Int) < ((List.replicate 6 (⟨[], []⟩ : Message)).length : Int) ∧
    (trimHistory 5 (List.replicate 6 ⟨[], []⟩)).length = 5 ∧
    specTrimmedLength 6 = 4 ∧
    (trimHistory 5 (List.replicate 6 ⟨[], []⟩)).length ≠ specTrimmedLength 6 := by
  have hc : ⌈(6 : ℚ) * 0.2⌉₊ = 2 := by
    rw [Nat.ceil_eq_iff (by norm_num)]
    norm_num
  have hs : specTrimmedLength 6 = 4 := by
    unfold specTrimmedLength
    push_cast
    rw [hc]
    rfl
  refine ⟨by decide, by decide, by decide, hs, ?_⟩
  rw [hs]
  decide

/-- C5 (amended): for every limit > 0 and every history of length L > limit
(L below 2^50), the trimmed history has length `L - max(1, floor(L*0.2))`:
the float64 product `L * 0.2` is truncated, not rounded up. -/
theorem trimHistory_length (limit : Int) (history : List Message) (hpos : 0 < limit)
    (hover : limit < (history.length : Int)) (hsmall : history.length < 2 ^ 50) :
    (trimHistory limit history).length = history.length - max 1 (history.length / 5) := by
  rw [trimHistory_of_over limit history hpos hover, List.length_drop,
    dropCount_eq history.length hsmall]

theorem trimHistory_length_witness :
    (trimHistory 5 (List.replicate 6 ⟨[], []⟩)).length =
      (List.replicate 6 (⟨[], []⟩ : Message)).length -
        max 1 ((List.replicate 6 (⟨[], []⟩ : Message)).length / 5) :=
  trimHistory_length 5 (List.replicate 6 ⟨[], []⟩) (by decide) (by decide) (by decide)

/-- C6: for every history and every limit, the trimmed history is a suffix
of the history (the most recent turns in their order; only turns at the
front are removed), and it is the history itself when the limit is not
configured (<= 0) or not exceeded. -/
theorem trimHistory_suffix (limit : Int) (history : List Message) :
    trimHistory limit history <:+ history ∧
    (limit ≤ 0 ∨ (history.length : Int) ≤ limit → trimHistory limit history = history) := by
  refine ⟨?_, trimHistory_of_not_over limit history⟩
  unfold trimHistory
  split
  · exact List.drop_suffix _ _
  · exact List.suffix_refl _

theorem trimHistory_suffix_witness :
    trimHistory 3 [⟨"user".toList, "a".toList⟩, ⟨"assistant".toList, "b".toList⟩] <:+
      [⟨"user".toList, "a".toList⟩, ⟨"assistant".toList, "b".toList⟩] ∧
    trimHistory 3 [⟨"user".toList, "a".toList⟩, ⟨"assistant".toList, "b".toList⟩] =
      [⟨"user".toList, "a".toList⟩, ⟨"assistant".toList, "b".toList⟩] :=
  ⟨(trimHistory_suffix 3 [⟨"user".toList, "a".toList⟩, ⟨"assistant".toList, "b".toList⟩]).1,
    (trimHistory_suffix 3 [⟨"user".toList, "a".toList⟩, ⟨"assistant".toList, "b".toList⟩]).2
      (Or.inr (by decide))⟩

/-- C7 (as stated) fails: with limit 1, two successful turns from the empty
history leave two turns in the history file. -/
theorem history_exceeds_limit_one :
    (runLoop (configWith 1) "default".toList [] [echoPass "a".toList, echoPass "b".toList]
      ⟨HistoryFile.stored [], ()⟩).1.history =
      HistoryFile.stored
        [⟨"user".toList, "b".toList⟩, ⟨"assistant".toList, "\x7b\x7d".toList⟩] ∧
    ¬ Bounded 1 (runLoop (configWith 1) "default".toList []
      [echoPass "a".toList, echoPass "b".toList] ⟨HistoryFile.stored [], ()⟩).1.history := by
  have h : (runLoop (configWith 1) "default".toList [] [echoPass "a".toList, echoPass "b".toList]
      ⟨HistoryFile.stored [], ()⟩).1.history =
      HistoryFile.stored
        [⟨"user".toList, "b".toList⟩, ⟨"assistant".toList, "\x7b\x7d".toList⟩] := by
    decide
  refine ⟨h, ?_⟩
  rw [h]
  unfold Bounded loaded
  decide

/-- C7 (amended): for every limit from 8 on, starting from the empty
history, the history file holds at most `limit` turns after every pass of
the loop (successful or failed turn, `/clear`, direct commands), whatever
is typed and whatever the backend answers, as long as the commands that are
run leave the history file alone; for every limit above 0 it holds at most
`max limit 8` turns. -/
theorem history_within_limit {S : Type} (conf : Config) (promptKey cwd : Text)
    (passes : List (Pass S)) (s : S) (hpos : 0 < conf.ContextFileLimit)
    (hkeep : ∀ p ∈ passes, KeepsHistory p.env) :
    Bounded (max conf.ContextFileLimit 8)
      (runLoop conf promptKey cwd passes ⟨HistoryFile.stored [], s⟩).1.history ∧
    (8 ≤ conf.ContextFileLimit →
      Bounded conf.ContextFileLimit
        (runLoop conf promptKey cwd passes ⟨HistoryFile.stored [], s⟩).1.history) := by
  have h := runLoop_bounded conf promptKey cwd passes ⟨HistoryFile.stored [], s⟩ hpos hkeep
    (by simp [Bounded, loaded])
  refine ⟨h, fun h8 => ?_⟩
  rwa [max_eq_left h8] at h

theorem history_within_limit_witness :
    Bounded (max (configWith 8).ContextFileLimit 8)
      (runLoop (configWith 8) "default".toList [] (List.replicate 6 (echoPass "a".toList))
        ⟨HistoryFile.stored [], ()⟩).1.history ∧
    Bounded (configWith 8).ContextFileLimit
      (runLoop (configWith 8) "default".toList [] (List.replicate 6 (echoPass "a".toList))
        ⟨HistoryFile.stored [], ()⟩).1.history :=
  ⟨(history_within_limit (configWith 8) "default".toList [] (List.replicate 6
      (echoPass "a".toList)) () (by decide)
      (fun p hp => by rw [List.eq_of_mem_replicate hp]; exact keepsHistory_echoEnv)).1,
    (history_within_limit (configWith 8) "default".toList [] (List.replicate 6
      (echoPass "a".toList)) () (by decide)
      (fun p hp => by rw [List.eq_of_mem_replicate hp]; exact keepsHistory_echoEnv)).2
      (by decide)⟩

/-- C8: a failed turn leaves the history file as it was: when the transport
fails, or the body is not JSON, or it carries no assistant content, or the
extracted span does not decode as an action, the history file after the
turn is the history file before it. -/
theorem dispatchToModel_failed_keeps_history {S : Type} (env : Env S) (conf : Config)
    (cwd systemPrompt prompt : Text) (w : World S)
    (hfail : TurnFails env conf systemPrompt prompt (loaded w.history)) :
    (dispatchToModel env conf cwd systemPrompt prompt w).world.history = w.history := by
  rcases dispatchToModel_history env conf cwd systemPrompt prompt w with h | ⟨hn, _⟩
  · rw [h]
  · exact absurd hfail hn

theorem dispatchToModel_failed_keeps_history_witness :
    TurnFails downEnv (configWith 20) "ctx".toList "hello".toList
      (loaded (HistoryFile.stored [⟨"user".toList, "a".toList⟩])) ∧
    (dispatchToModel downEnv (configWith 20) [] "ctx".toList "hello".toList
      ⟨HistoryFile.stored [⟨"user".toList, "a".toList⟩], ()⟩).world.history =
      HistoryFile.stored [⟨"user".toList, "a".toList⟩] :=
  ⟨trivial, dispatchToModel_failed_keeps_history downEnv (configWith 20) [] "ctx".toList
    "hello".toList ⟨HistoryFile.stored [⟨"user".toList, "a".toList⟩], ()⟩ trivial⟩

end OpenCoder
